import Mathlib

/-!
# Utreexo: pollard node utilities, pollard persistence, udata verification, txo splitting

A shallow embedding of

* `accumulator/pollardutil.go` : `polNode`, `deadEnd`, `chop`, `prune`, `leafPrune`,
  `polSwap`, `rootHashesReverse`, `WritePollard`, `RestorePollard`;
* `util/udata.go` : `UData.Verify`;
* `cmd/clair/clair.go` : `SplitAfter`.

Go pointers to `polNode` are addresses into an explicit heap; a nil pointer is `none`.
A Go run-time failure (nil dereference, index out of range, `panic`) is an explicit
result of the embedded function.
-/

namespace Utreexo

/-! ## Bytes and hashes -/

/-- One byte. -/
abbrev Byte := Fin 256

/-- The Go type `Hash`, that is `[32]byte`. -/
structure Hash where
  bytes : List Byte
  len : bytes.length = 32
deriving DecidableEq

/-- The zero value of `Hash`: what `var h Hash` and `make([]Hash, n)` hold. -/
def Hash.zero : Hash := ⟨List.replicate 32 0, by simp⟩

/-- A hash whose 32 bytes are all `b` (used to write concrete inputs). -/
def Hash.fill (b : Byte) : Hash := ⟨List.replicate 32 b, by simp⟩

/-- Copying `l` into a zeroed array of `n` bytes, as a read into `buf[:]` does: the bytes
that were read come first, the rest of the array keeps its zero value. -/
def padTo (n : Nat) (l : List Byte) : List Byte :=
  (l ++ List.replicate n 0).take n

/-- The array `h` of `var h Hash` after the bytes `l` were read into `h[:]`. -/
def Hash.ofBytes (l : List Byte) : Hash := ⟨padTo 32 l, by simp [padTo]⟩

/-! ## Pollard nodes on a heap -/

/-- A Go `*polNode`: `none` is nil, `some a` the node stored at address `a`. -/
abbrev Ptr := Option Nat

/-- The Go struct `polNode`: `data Hash` and `niece [2]*polNode`. -/
structure polNode where
  data : Hash
  niece : Ptr × Ptr
deriving DecidableEq

/-- The memory holding every `polNode` that a pointer can reach. -/
abbrev Heap := Nat → polNode

/-- The assignment `n.data = d` through a non-nil pointer `n`. -/
def setData (h : Heap) (n : Nat) (d : Hash) : Heap :=
  Function.update h n { h n with data := d }

/-- The assignment `n.niece = ns` (the whole two-element array) through a non-nil pointer. -/
def setNiece (h : Heap) (n : Nat) (ns : Ptr × Ptr) : Heap :=
  Function.update h n { h n with niece := ns }

/-- The assignment `n.niece[0] = p`. -/
def setNiece0 (h : Heap) (n : Nat) (p : Ptr) : Heap :=
  setNiece h n (p, (h n).niece.2)

/-- The assignment `n.niece[1] = p`. -/
def setNiece1 (h : Heap) (n : Nat) (p : Ptr) : Heap :=
  setNiece h n ((h n).niece.1, p)

/-- The method `deadEnd`: `n.niece[0] == nil && n.niece[1] == nil`. The nil check on `n`
is commented out in the source, so a nil receiver is dereferenced: `none` is that
nil-pointer failure. -/
def deadEnd (h : Heap) (n : Ptr) : Option Bool :=
  match n with
  | none => none
  | some a => some ((h a).niece.1.isNone && (h a).niece.2.isNone)

/-- The method `chop`: both nieces set to nil. `none` is the nil-pointer failure. -/
def chop (h : Heap) (n : Ptr) : Option Heap :=
  match n with
  | none => none
  | some a =>
    let h1 := setNiece0 h a none
    some (setNiece1 h1 a none)

/-- The method `prune`. Each `if` evaluates `n.niece[i].deadEnd()` on the heap as it is at
that point; `none` is a nil-pointer failure, of `n` or of a niece inside `deadEnd`. -/
def prune (h : Heap) (n : Ptr) : Option Heap :=
  match n with
  | none => none
  | some a =>
    match deadEnd h (h a).niece.1 with
    | none => none
    | some d0 =>
      let h1 := if d0 then setNiece0 h a none else h
      match deadEnd h1 (h1 a).niece.2 with
      | none => none
      | some d1 => some (if d1 then setNiece1 h1 a none else h1)

/-- The method `leafPrune`. The condition is the left-to-right short-circuit conjunction
of the source, so `deadEnd` is only reached on a niece that is not nil. -/
def leafPrune (h : Heap) (n : Ptr) : Option Heap :=
  match n with
  | none => none
  | some a =>
    match (h a).niece.1 with
    | none => some h
    | some _ =>
      match (h a).niece.2 with
      | none => some h
      | some _ =>
        match deadEnd h (h a).niece.1 with
        | none => none
        | some false => some h
        | some true =>
          match deadEnd h (h a).niece.2 with
          | none => none
          | some false => some h
          | some true => chop h n

/-- The function `polSwap`. The first component is the returned `error` (`none` is Go
nil), the second the heap after the call. Each tuple assignment reads both right-hand
sides first and then stores left to right. -/
def polSwap (h : Heap) (a asib b bsib : Ptr) : Option String × Heap :=
  match a, asib, b, bsib with
  | some a, some asib, some b, some bsib =>
    let da := (h a).data
    let db := (h b).data
    let h1 := setData h a db
    let h2 := setData h1 b da
    let na := (h2 asib).niece
    let nb := (h2 bsib).niece
    let h3 := setNiece h2 asib nb
    let h4 := setNiece h3 bsib na
    (none, h4)
  | _, _, _, _ => (some "polSwap given nil node", h)

/-! ## The pollard and its persistence -/

/-- The Go type `MiniHash`, `[12]byte`: the first 12 bytes of a `Hash`. -/
abbrev MiniHash := List Byte

/-- The Go struct `Pollard`. `roots` holds `polNode` values, big to small; their niece
pointers point into the heap. -/
structure Pollard where
  numLeaves : Nat
  roots : List polNode
  hashesEver : Nat
  rememberEver : Nat
  overWire : Nat
  positionMap : List (MiniHash × Nat)
deriving DecidableEq

/-- The body of the `for i, n := range p.roots` loop of `rootHashesReverse`:
`rHashes[len(rHashes)-(1+i)] = n.data`. -/
def rootHashesReverseLoop : Nat → List polNode → List Hash → List Hash
  | _, [], rHashes => rHashes
  | i, n :: rest, rHashes =>
    rootHashesReverseLoop (i + 1) rest (rHashes.set (rHashes.length - (1 + i)) n.data)

/-- The method `rootHashesReverse`: a slice of `len(p.roots)` zero hashes filled by the
loop. -/
def rootHashesReverse (p : Pollard) : List Hash :=
  rootHashesReverseLoop 0 p.roots (List.replicate p.roots.length Hash.zero)

/-- The low byte of a number. -/
def toByte (n : Nat) : Byte := ⟨n % 256, Nat.mod_lt n (by decide)⟩

/-- Modelled from the spec: `U64tB` is not among the sources; the persistence section
stores `num_leaves` as 8 bytes big-endian, so this is the big-endian encoding of a
`uint64`, most significant byte first. -/
def U64tB (n : Nat) : List Byte :=
  [toByte (n / 2 ^ 56), toByte (n / 2 ^ 48), toByte (n / 2 ^ 40), toByte (n / 2 ^ 32),
   toByte (n / 2 ^ 24), toByte (n / 2 ^ 16), toByte (n / 2 ^ 8), toByte n]

/-- Modelled from the spec: `BtU64` is not among the sources; it decodes the big-endian
bytes that `U64tB` produces. -/
def BtU64 (b : List Byte) : Nat :=
  b.foldl (fun acc x => acc * 256 + x.val) 0

/-- Modelled from the spec: `popcount` of a `uint64`, the number of set bits among its 64
bits. -/
def popcount (n : Nat) : Nat :=
  ((List.range 64).map (fun i => n / 2 ^ i % 2)).sum

/-- The call `WriteAt(b, off)` on a file holding `content`: bytes before `off` are kept
(a gap is zero-filled), `b` is stored at `off`, bytes after `off + len(b)` are kept. -/
def WriteAt (content b : List Byte) (off : Nat) : List Byte :=
  padTo off content ++ b ++ content.drop (off + b.length)

/-- The method `WritePollard`: the contents of `pollardfile.dat` after the call.
`os.Remove` followed by `os.OpenFile(.., O_CREATE|O_RDWR, ..)` gives an empty file; the
hashes of all the roots are appended in the order of `p.roots`, and
`U64tB(p.numLeaves)` followed by them is written at offset 0. Failures of the operating
system are outside the model. -/
def WritePollard (p : Pollard) : List Byte :=
  let allRoots := p.roots.foldl (fun acc t => acc ++ t.data.bytes) []
  WriteAt [] (U64tB p.numLeaves ++ allRoots) 0

/-- An open file: its bytes and the offset of the next sequential read. -/
structure File where
  content : List Byte
  offset : Nat
deriving DecidableEq

/-- The call `f.Read(buf)` with `len(buf) = n`: at the end of the file it fails with
`io.EOF` (`none`); otherwise it returns the bytes read, at most `n`, and advances. -/
def File.Read (f : File) (n : Nat) : Option (List Byte × File) :=
  if f.content.length ≤ f.offset then none
  else
    let got := (f.content.drop f.offset).take n
    some (got, { f with offset := f.offset + got.length })

/-- How a run of a loop with a step budget ends. -/
inductive Run (α : Type) where
  | done (a : α)
  | panicked
  | outOfFuel
deriving DecidableEq

/-- The loop of `RestorePollard`, `for i := 0; pos != pstat.Size(); i++`, with a budget
of iterations: a failed read panics, a read fills a fresh zeroed `Hash`, and a new
`polNode` with that data and nil nieces is appended to the roots. -/
def restoreLoop : Nat → File → Nat → List polNode → Run (List polNode)
  | 0, _, _, _ => Run.outOfFuel
  | fuel + 1, f, pos, roots =>
    if pos = f.content.length then Run.done roots
    else
      match f.Read 32 with
      | none => Run.panicked
      | some (got, f1) =>
        restoreLoop fuel f1 (pos + 32) (roots ++ [⟨Hash.ofBytes got, (none, none)⟩])

/-- The method `RestorePollard` on a pollard `p` and a file `f`. Every iteration of the
loop that reads consumes at least one byte, so `len(content) + 1` iterations are more
than the loop can make. -/
def RestorePollard (p : Pollard) (f : File) : Run Pollard :=
  match f.Read 8 with
  | none => Run.panicked
  | some (got, f1) =>
    let numLeaves := BtU64 (padTo 8 got)
    match restoreLoop (f.content.length + 1) f1 8 p.roots with
    | Run.done roots => Run.done { p with numLeaves := numLeaves, roots := roots }
    | Run.panicked => Run.panicked
    | Run.outOfFuel => Run.outOfFuel

/-! ## Verification of a UData -/

/-- The Go struct `BatchProof`: the targets and the proof hashes. -/
structure BatchProof where
  Targets : List Nat
  Proof : List Hash
deriving DecidableEq

/-- The Go struct `UData`, with the fields `Verify` uses; `α` is the type `LeafData`. -/
structure UData (α : Type) where
  AccProof : BatchProof
  UtxoData : List α
deriving DecidableEq

/-- Inserting a target into an ascending list. -/
def insertTarget (x : Nat) : List Nat → List Nat
  | [] => [x]
  | y :: ys => if x ≤ y then x :: y :: ys else y :: insertTarget x ys

/-- Modelled from the spec: `SortTargets` is not among the sources; it sorts the targets
ascending, in place. -/
def BatchProof.SortTargets (bp : BatchProof) : BatchProof :=
  { bp with Targets := bp.Targets.foldr insertTarget [] }

/-- How a call of `Verify` ends: it returns a boolean, or `ud.UtxoData[i]` is out of
range and the program panics. -/
inductive Exit where
  | returned (b : Bool)
  | indexOutOfRange
deriving DecidableEq

/-- The loop `for i, pos := range presort` of `Verify`; `none` when the loop runs to its
end. -/
def verifyLoop {α : Type} (LeafHash : α → Hash) (mp : Nat → Option Hash)
    (UtxoData : List α) : Nat → List Nat → Option Exit
  | _, [] => none
  | i, pos :: rest =>
    match mp pos with
    | none => some (Exit.returned false)
    | some hashInProof =>
      match UtxoData.get? i with
      | none => some Exit.indexOutOfRange
      | some d =>
        if LeafHash d ≠ hashInProof then some (Exit.returned false)
        else verifyLoop LeafHash mp UtxoData (i + 1) rest

/-- The method `UData.Verify`. `Reconstruct` and `LeafHash` are not among the sources and
are parameters; `Reconstruct` returns the map or an error. The result is how the call
ends together with the `UData` the receiver points to afterwards. The length check only
prints, so it has no effect here. -/
def Verify {α : Type} (Reconstruct : BatchProof → Nat → Nat → Except String (Nat → Option Hash))
    (LeafHash : α → Hash) (ud : UData α) (nl h : Nat) : Exit × UData α :=
  let presort := ud.AccProof.Targets
  let ud1 : UData α := { ud with AccProof := ud.AccProof.SortTargets }
  match Reconstruct ud1.AccProof nl h with
  | Except.error _ => (Exit.returned false, ud1)
  | Except.ok mp =>
    match verifyLoop LeafHash mp ud1.UtxoData 0 presort with
    | some e => (e, ud1)
    | none =>
      (Exit.returned true, { ud1 with AccProof := { ud1.AccProof with Targets := presort } })

/-! ## Splitting the clairvoyant slice -/

/-- The Go struct `txoEnd`; the field `end` is written `end_`. -/
structure txoEnd where
  txoIdx : Nat
  end_ : Nat
deriving DecidableEq

/-- The loop `for i, c := range s` of `SplitAfter`: at the first `c.end > h` the named
results are set to `s[0:i]` and `s[i:]`; if the loop ends, they keep their zero value,
nil. -/
def SplitAfterLoop (s : List txoEnd) (h : Nat) : Nat → List txoEnd → List txoEnd × List txoEnd
  | _, [] => ([], [])
  | i, c :: rest =>
    if c.end_ > h then (s.take i, s.drop i) else SplitAfterLoop s h (i + 1) rest

/-- The function `SplitAfter`, returning `(top, bottom)`. -/
def SplitAfter (s : List txoEnd) (h : Nat) : List txoEnd × List txoEnd :=
  SplitAfterLoop s h 0 s

/-! ## Concrete inputs -/

/-- A pollard with five leaves and two roots whose first root has a niece. -/
def examplePollard : Pollard :=
  ⟨5, [⟨Hash.fill 1, (some 1, none)⟩, ⟨Hash.fill 2, (none, none)⟩], 0, 0, 0, []⟩

/-- An empty pollard, the zero value of the struct. -/
def emptyPollard : Pollard := ⟨0, [], 0, 0, 0, []⟩

/-- A heap for `prune`: node 0 has a left niece, node 1, and no right niece; node 1 has
both nieces; every other node has none. -/
def pruneHeap : Heap := fun a =>
  if a = 0 then ⟨Hash.fill 7, (some 1, none)⟩
  else if a = 1 then ⟨Hash.fill 8, (some 2, some 3)⟩
  else ⟨Hash.zero, (none, none)⟩

/-- A `Reconstruct` that succeeds with the map `{0: fill 9, 1: fill 5}`. -/
def orderReconstruct : BatchProof → Nat → Nat → Except String (Nat → Option Hash) :=
  fun _ _ _ => Except.ok (fun pos =>
    if pos = 0 then some (Hash.fill 9) else if pos = 1 then some (Hash.fill 5) else none)

/-- A `UData` with the unsorted targets `[1, 0]` and leaf datas in that order: the first
hashes to the entry at 1, the second to the entry at 0 (with `Hash.fill` as leaf hash). -/
def orderUData : UData Byte := ⟨⟨[1, 0], []⟩, [5, 9]⟩

/-- The same targets with the leaf datas in the order of the sorted targets `[0, 1]`. -/
def sortedOrderUData : UData Byte := ⟨⟨[1, 0], []⟩, [9, 5]⟩

/-! ## Reading a heap after an assignment -/

theorem setData_data (h : Heap) (n q : Nat) (d : Hash) :
    (setData h n d q).data = if q = n then d else (h q).data := by
  unfold setData
  by_cases e : q = n
  · subst e; simp
  · simp [Function.update_noteq e, e]

theorem setData_niece (h : Heap) (n q : Nat) (d : Hash) :
    (setData h n d q).niece = (h q).niece := by
  unfold setData
  by_cases e : q = n
  · subst e; simp
  · simp [Function.update_noteq e]

theorem setNiece_data (h : Heap) (n q : Nat) (ns : Ptr × Ptr) :
    (setNiece h n ns q).data = (h q).data := by
  unfold setNiece
  by_cases e : q = n
  · subst e; simp
  · simp [Function.update_noteq e]

theorem setNiece_niece (h : Heap) (n q : Nat) (ns : Ptr × Ptr) :
    (setNiece h n ns q).niece = if q = n then ns else (h q).niece := by
  unfold setNiece
  by_cases e : q = n
  · subst e; simp
  · simp [Function.update_noteq e, e]

theorem setNiece_other (h : Heap) (n q : Nat) (ns : Ptr × Ptr) (e : q ≠ n) :
    setNiece h n ns q = h q := by
  unfold setNiece
  exact Function.update_noteq e _ _

theorem deadEnd_some (h : Heap) (x : Nat) :
    deadEnd h (some x) = some (decide ((h x).niece = (none, none))) := by
  simp only [deadEnd]
  generalize (h x).niece = n
  rcases n with ⟨n0, n1⟩
  cases n0 <;> cases n1 <;> simp

/-- A nil niece makes `prune` fail: the receiver of `deadEnd` is dereferenced. -/
theorem prune_nil_niece (h : Heap) (a : Nat)
    (hnil : (h a).niece.1 = none ∨ (h a).niece.2 = none) : prune h (some a) = none := by
  rcases hn : (h a).niece with ⟨n0, n1⟩
  rw [hn] at hnil
  cases n0 with
  | none => simp [prune, hn, deadEnd]
  | some x =>
    cases n1 with
    | none =>
      by_cases hx : (h x).niece = (none, none)
      · simp only [prune, hn, deadEnd_some, hx, decide_True, if_true]
        simp [setNiece0, setNiece_niece, deadEnd, hn]
      · simp only [prune, hn, deadEnd_some, hx, decide_False]
        simp [hn, deadEnd]
    | some y => simp at hnil

/-- With both nieces present `prune` completes: a niece that is a dead end is cleared, a
niece that is not is kept, the data of `n` and every other node are unchanged. -/
theorem prune_both_present (h : Heap) (a x y : Nat) (hn : (h a).niece = (some x, some y)) :
    ∃ h1, prune h (some a) = some h1 ∧
      (h1 a).data = (h a).data ∧
      (h1 a).niece.1 = (if (h x).niece = (none, none) then none else some x) ∧
      (h1 a).niece.2 = (if (h y).niece = (none, none) then none else some y) ∧
      ∀ q, q ≠ a → h1 q = h q := by
  by_cases hx : (h x).niece = (none, none)
  · by_cases hy : (h y).niece = (none, none)
    · have hne : y ≠ a := by
        intro e
        rw [e, hn] at hy
        simp at hy
      refine ⟨setNiece1 (setNiece0 h a none) a none, ?_, ?_, ?_, ?_, ?_⟩
      · simp [prune, hn, deadEnd_some, hx, setNiece0, setNiece_niece, setNiece_other, hne, hy]
      · simp [setNiece0, setNiece1, setNiece_data]
      · simp [setNiece0, setNiece1, setNiece_niece, hx]
      · simp [setNiece0, setNiece1, setNiece_niece, hy]
      · intro q hq
        simp [setNiece0, setNiece1, setNiece_other, hq]
    · refine ⟨setNiece0 h a none, ?_, ?_, ?_, ?_, ?_⟩
      · by_cases e : y = a
        · subst e
          simp [prune, hn, deadEnd_some, hx, setNiece0, setNiece_niece]
        · simp [prune, hn, deadEnd_some, hx, setNiece0, setNiece_niece, setNiece_other, e, hy]
      · simp [setNiece0, setNiece_data]
      · simp [setNiece0, setNiece_niece, hx]
      · simp [setNiece0, setNiece_niece, hy, hn]
      · intro q hq
        simp [setNiece0, setNiece_other, hq]
  · by_cases hy : (h y).niece = (none, none)
    · refine ⟨setNiece1 h a none, ?_, ?_, ?_, ?_, ?_⟩
      · simp [prune, hn, deadEnd_some, hx, hy]
      · simp [setNiece1, setNiece_data]
      · simp [setNiece1, setNiece_niece, hx, hn]
      · simp [setNiece1, setNiece_niece, hy]
      · intro q hq
        simp [setNiece1, setNiece_other, hq]
    · refine ⟨h, ?_, rfl, ?_, ?_, fun _ _ => rfl⟩
      · simp [prune, hn, deadEnd_some, hx, hy]
      · simp [hx, hn]
      · simp [hy, hn]

/-! ## Lemmas on the persistence format -/

theorem padTo_of_length (n : Nat) (l : List Byte) (e : l.length = n) : padTo n l = l := by
  unfold padTo
  exact List.take_left' e

theorem Hash.ofBytes_bytes (x : Hash) : Hash.ofBytes x.bytes = x := by
  cases x with
  | mk bs e => simp [Hash.ofBytes, padTo_of_length 32 bs e]

theorem U64tB_length (n : Nat) : (U64tB n).length = 8 := rfl

theorem BtU64_U64tB (n : Nat) (hn : n < 2 ^ 64) : BtU64 (U64tB n) = n := by
  simp only [BtU64, U64tB, toByte, List.foldl_cons, List.foldl_nil]
  norm_num at hn ⊢
  omega

theorem foldl_append_bytes (rs : List polNode) (init : List Byte) :
    rs.foldl (fun acc t => acc ++ t.data.bytes) init
      = init ++ (rs.map (fun r => r.data.bytes)).flatten := by
  induction rs generalizing init with
  | nil => simp
  | cons r t ih => simp [ih]

theorem WritePollard_eq (p : Pollard) :
    WritePollard p = U64tB p.numLeaves ++ (p.roots.map (fun r => r.data.bytes)).flatten := by
  simp [WritePollard, WriteAt, padTo, foldl_append_bytes]

theorem rootBytes_length (rs : List polNode) :
    ((rs.map (fun r => r.data.bytes)).flatten).length = 32 * rs.length := by
  induction rs with
  | nil => rfl
  | cons r t ih =>
    simp only [List.map_cons, List.flatten_cons, List.length_append, ih, r.data.len,
      List.length_cons]
    omega

theorem restoreLoop_hashes (rs : List polNode) :
    ∀ (pre : List Byte) (acc : List polNode) (fuel : Nat), rs.length < fuel →
      restoreLoop fuel ⟨pre ++ (rs.map (fun r => r.data.bytes)).flatten, pre.length⟩
          pre.length acc
        = Run.done (acc ++ rs.map (fun r => ⟨r.data, (none, none)⟩)) := by
  induction rs with
  | nil =>
    intro pre acc fuel hf
    cases fuel with
    | zero => omega
    | succ k => simp [restoreLoop]
  | cons r t ih =>
    intro pre acc fuel hf
    cases fuel with
    | zero => omega
    | succ k =>
      have hk : t.length < k := by simp at hf; omega
      have h32 : r.data.bytes.length = 32 := r.data.len
      have hne : ¬ pre.length = (pre ++ (r.data.bytes ++
          (t.map (fun r => r.data.bytes)).flatten)).length := by
        simp [h32]
      have hread : File.Read ⟨pre ++ (r.data.bytes ++
          (t.map (fun r => r.data.bytes)).flatten), pre.length⟩ 32
          = some (r.data.bytes, ⟨(pre ++ r.data.bytes) ++
              (t.map (fun r => r.data.bytes)).flatten, (pre ++ r.data.bytes).length⟩) := by
        have hgot : List.take 32 (r.data.bytes ++ (t.map (fun r => r.data.bytes)).flatten)
            = r.data.bytes := List.take_left' h32
        simp [File.Read, h32, hgot]
      have hstep := ih (pre ++ r.data.bytes) (acc ++ [⟨r.data, (none, none)⟩]) k hk
      simp only [List.map_cons, List.flatten_cons, restoreLoop, hne, if_false, hread,
        Hash.ofBytes_bytes]
      have hlen : pre.length + 32 = (pre ++ r.data.bytes).length := by simp [h32]
      rw [hlen, hstep]
      simp

/-! ## Lemmas on the loops over roots and txos -/

theorem rootHashesReverseLoop_eq (rest : List polNode) :
    ∀ (k : Nat) (Z R : List Hash), Z.length = rest.length → R.length = k →
      rootHashesReverseLoop k rest (Z ++ R) = (rest.map polNode.data).reverse ++ R := by
  induction rest with
  | nil =>
    intro k Z R hZ _
    have : Z = [] := List.length_eq_zero.mp hZ
    simp [rootHashesReverseLoop, this]
  | cons x t ih =>
    intro k Z R hZ hR
    have hZ1 : Z.length = t.length + 1 := by simpa using hZ
    have hidx : (Z ++ R).length - (1 + k) = t.length := by
      rw [List.length_append, hZ1, hR]
      omega
    have hlt : t.length < Z.length := by omega
    have hset : (Z ++ R).set t.length x.data = Z.take t.length ++ (x.data :: R) := by
      rw [List.set_append, if_pos hlt, List.set_eq_take_cons_drop _ hlt,
        List.drop_of_length_le (by omega)]
      simp
    have htake : (Z.take t.length).length = t.length := by
      rw [List.length_take]
      omega
    simp only [rootHashesReverseLoop, hidx, hset]
    rw [ih (k + 1) (Z.take t.length) (x.data :: R) htake (by simp [hR])]
    simp

theorem rootHashesReverse_eq (p : Pollard) :
    rootHashesReverse p = (p.roots.map polNode.data).reverse := by
  have := rootHashesReverseLoop_eq p.roots 0 (List.replicate p.roots.length Hash.zero) []
    (by simp) rfl
  simpa [rootHashesReverse] using this

theorem SplitAfterLoop_eq (h : Nat) (rest : List txoEnd) :
    ∀ pre : List txoEnd,
      SplitAfterLoop (pre ++ rest) h pre.length rest
        = if rest.all (fun c => decide (c.end_ ≤ h)) then ([], [])
          else (pre ++ rest.takeWhile (fun c => decide (c.end_ ≤ h)),
                rest.dropWhile (fun c => decide (c.end_ ≤ h))) := by
  induction rest with
  | nil => intro pre; simp [SplitAfterLoop]
  | cons c t ih =>
    intro pre
    by_cases hc : c.end_ ≤ h
    · have hnot : ¬ c.end_ > h := by omega
      have hstep := ih (pre ++ [c])
      simp only [List.append_assoc, List.singleton_append, List.length_append,
        List.length_singleton] at hstep
      simp only [SplitAfterLoop, hnot, if_false, hstep, List.all_cons, hc, decide_True,
        Bool.true_and, List.takeWhile_cons, List.dropWhile_cons, if_true]
    · have hgt : c.end_ > h := by omega
      simp [SplitAfterLoop, hgt, hc]

/-- What `SplitAfter` computes: nothing at all when no element has `end > h`, and
otherwise the longest leading run with `end <= h` and the rest. -/
theorem SplitAfter_eq (s : List txoEnd) (h : Nat) :
    SplitAfter s h
      = if s.all (fun c => decide (c.end_ ≤ h)) then ([], [])
        else (s.takeWhile (fun c => decide (c.end_ ≤ h)),
              s.dropWhile (fun c => decide (c.end_ ≤ h))) := by
  have := SplitAfterLoop_eq h s []
  simpa [SplitAfter] using this

/-- When some element has `end > h`, the two parts of `SplitAfter` make up `s` and every
element of the low part has `end <= h`. -/
theorem SplitAfter_of_exists (s : List txoEnd) (h : Nat) (hex : ∃ c ∈ s, h < c.end_) :
    (SplitAfter s h).1 ++ (SplitAfter s h).2 = s ∧
    ∀ c ∈ (SplitAfter s h).1, c.end_ ≤ h := by
  have hall : ¬ (s.all (fun c => decide (c.end_ ≤ h)) = true) := by
    obtain ⟨c, hc, hlt⟩ := hex
    simp only [List.all_eq_true, decide_eq_true_eq, not_forall]
    exact ⟨c, hc, by omega⟩
  rw [SplitAfter_eq, if_neg hall]
  refine ⟨List.takeWhile_append_dropWhile _ _, ?_⟩
  intro c hc
  simpa using List.mem_takeWhile_imp hc

/-! ## Lemmas on `Verify` -/

/-- The loop of `Verify` never ends the call with true: true is returned after it. -/
theorem verifyLoop_ne_true {α : Type} (LeafHash : α → Hash) (mp : Nat → Option Hash)
    (UtxoData : List α) (presort : List Nat) :
    ∀ i, verifyLoop LeafHash mp UtxoData i presort ≠ some (Exit.returned true) := by
  induction presort with
  | nil => intro i; simp [verifyLoop]
  | cons pos rest ih =>
    intro i
    unfold verifyLoop
    split
    · simp
    · split
      · simp
      · split
        · simp
        · exact ih (i + 1)

/-- A call of `Verify` that returns true leaves the `UData` as it was. -/
theorem Verify_true_restores {α : Type}
    (Reconstruct : BatchProof → Nat → Nat → Except String (Nat → Option Hash))
    (LeafHash : α → Hash) (ud : UData α) (nl h : Nat)
    (ht : (Verify Reconstruct LeafHash ud nl h).1 = Exit.returned true) :
    (Verify Reconstruct LeafHash ud nl h).2 = ud := by
  unfold Verify at ht ⊢
  simp only at ht ⊢
  split
  · rename_i e he
    simp [he] at ht
  · rename_i mp he
    split
    · rename_i e hloop
      simp only [he, hloop] at ht
      have := verifyLoop_ne_true LeafHash mp ud.UtxoData ud.AccProof.Targets 0
      rw [hloop, ht] at this
      exact absurd rfl this
    · rfl

/-- A call of `Verify` that returns false leaves the targets sorted, not restored. -/
theorem Verify_false_sorted {α : Type}
    (Reconstruct : BatchProof → Nat → Nat → Except String (Nat → Option Hash))
    (LeafHash : α → Hash) (ud : UData α) (nl h : Nat)
    (hf : (Verify Reconstruct LeafHash ud nl h).1 = Exit.returned false) :
    (Verify Reconstruct LeafHash ud nl h).2
      = { ud with AccProof := ud.AccProof.SortTargets } := by
  unfold Verify at hf ⊢
  simp only at hf ⊢
  split
  · rfl
  · rename_i mp he
    split
    · rfl
    · rename_i hloop
      simp [he, hloop] at hf

/-- The loop of `Verify` runs to its end exactly when every target of `presort` has an
entry in the map that is the leaf hash of the leaf data at the same index. -/
theorem verifyLoop_none_iff {α : Type} (LeafHash : α → Hash) (mp : Nat → Option Hash)
    (UtxoData : List α) (presort : List Nat) :
    ∀ i, verifyLoop LeafHash mp UtxoData i presort = none ↔
      ∀ j pos, presort.get? j = some pos →
        ∃ d, UtxoData.get? (i + j) = some d ∧ mp pos = some (LeafHash d) := by
  induction presort with
  | nil => intro i; simp [verifyLoop]
  | cons p rest ih =>
    intro i
    unfold verifyLoop
    constructor
    · intro hrun j pos hj
      cases hmp : mp p with
      | none => simp [hmp] at hrun
      | some hashInProof =>
        cases hd : UtxoData.get? i with
        | none =>
          simp only [hmp, hd] at hrun
          exact Option.noConfusion hrun
        | some d =>
          simp only [hmp, hd] at hrun
          by_cases hne : LeafHash d ≠ hashInProof
          · rw [if_pos hne] at hrun
            exact Option.noConfusion hrun
          · rw [if_neg hne] at hrun
            cases j with
            | zero =>
              simp only [List.get?_cons_zero, Option.some.injEq] at hj
              subst hj
              refine ⟨d, by simpa using hd, ?_⟩
              rw [hmp]
              simp only [ne_eq, not_not] at hne
              rw [hne]
            | succ k =>
              simp only [List.get?_cons_succ] at hj
              have := (ih (i + 1)).mp hrun k pos hj
              have hidx : i + (k + 1) = i + 1 + k := by omega
              rw [hidx]
              exact this
    · intro hall
      obtain ⟨d, hd, hmp⟩ := hall 0 p (by simp)
      simp only [Nat.add_zero] at hd
      simp only [hmp, hd, ne_eq, not_true_eq_false, if_false]
      apply (ih (i + 1)).mpr
      intro j pos hj
      have := hall (j + 1) pos (by simpa using hj)
      have hidx : i + (j + 1) = i + 1 + j := by omega
      rw [← hidx]
      exact this

/-- Two nodes with the same data and the same nieces are the same node value. -/
theorem polNode_eq (x y : polNode) (hd : x.data = y.data) (hn : x.niece = y.niece) :
    x = y := by
  cases x
  cases y
  simp only at hd hn
  rw [hd, hn]

/-! ## The step budget of `RestorePollard` is never exhausted -/

theorem restoreLoop_fuel (fuel : Nat) :
    ∀ (f : File) (pos : Nat) (acc : List polNode), f.content.length - f.offset < fuel →
      restoreLoop fuel f pos acc ≠ Run.outOfFuel := by
  induction fuel with
  | zero => intro f pos acc hlt; omega
  | succ k ih =>
    intro f pos acc hlt
    unfold restoreLoop
    split
    · simp
    · by_cases hend : f.content.length ≤ f.offset
      · simp [File.Read, hend]
      · simp only [File.Read, hend, if_false]
        apply ih
        simp only [List.length_take, List.length_drop]
        omega

theorem RestorePollard_fuel (p : Pollard) (f : File) :
    RestorePollard p f ≠ Run.outOfFuel := by
  unfold RestorePollard
  by_cases hend : f.content.length ≤ f.offset
  · simp [File.Read, hend]
  · simp only [File.Read, hend, if_false]
    have := restoreLoop_fuel (f.content.length + 1)
      { f with offset := f.offset + (List.take 8 (List.drop f.offset f.content)).length }
      8 p.roots (by simp only; omega)
    split
    · simp
    · simp
    · rename_i hout
      exact absurd hout this

/-! ## Theorems -/

/-- C1: a call of `Verify` that returns false leaves the targets sorted. With targets
`[1, 0]` and a `Reconstruct` that fails, `Verify` returns false and the targets are
`[0, 1]` afterwards, not the `[1, 0]` of before the call. -/
theorem Verify_false_keeps_sorted_targets :
    Verify (fun _ _ _ => Except.error "reconstruct") Hash.fill ⟨⟨[1, 0], []⟩, [3, 4]⟩ 2 1
      = (Exit.returned false, ⟨⟨[0, 1], []⟩, [3, 4]⟩) ∧
    (Verify (fun _ _ _ => Except.error "reconstruct") Hash.fill
      ⟨⟨[1, 0], []⟩, [3, 4]⟩ 2 1).2.AccProof.Targets ≠ [1, 0] := by
  constructor
  · rfl
  · decide

/-- C2: for four present nodes (aliasing allowed) `polSwap` returns no error, exchanges
`a.data` with `b.data` and `asib.niece` with `bsib.niece`, and leaves every other data
field and every other niece pair of the heap as it was. -/
theorem polSwap_present (h : Heap) (a asib b bsib : Nat) :
    (polSwap h (some a) (some asib) (some b) (some bsib)).1 = none ∧
    ((polSwap h (some a) (some asib) (some b) (some bsib)).2 a).data = (h b).data ∧
    ((polSwap h (some a) (some asib) (some b) (some bsib)).2 b).data = (h a).data ∧
    ((polSwap h (some a) (some asib) (some b) (some bsib)).2 asib).niece = (h bsib).niece ∧
    ((polSwap h (some a) (some asib) (some b) (some bsib)).2 bsib).niece = (h asib).niece ∧
    (∀ q, q ≠ a → q ≠ b →
      ((polSwap h (some a) (some asib) (some b) (some bsib)).2 q).data = (h q).data) ∧
    (∀ q, q ≠ asib → q ≠ bsib →
      ((polSwap h (some a) (some asib) (some b) (some bsib)).2 q).niece = (h q).niece) := by
  simp only [polSwap, setData_data, setData_niece, setNiece_data, setNiece_niece]
  refine ⟨trivial, ?_, ?_, ?_, ?_, ?_, ?_⟩
  · by_cases e : a = b
    · subst e; simp
    · simp [e]
  · simp
  · by_cases e : asib = bsib
    · subst e; simp
    · simp [e]
  · simp
  · intro q h1 h2
    simp [h1, h2]
  · intro q h1 h2
    simp [h1, h2]

/-- C3: `polSwap` returns an error exactly when one of its four arguments is nil, and
when it returns an error the heap (the data and nieces of every node) is what it was. -/
theorem polSwap_error_iff_nil (h : Heap) (a asib b bsib : Ptr) :
    ((polSwap h a asib b bsib).1.isSome = true ↔
      (a = none ∨ asib = none ∨ b = none ∨ bsib = none)) ∧
    ((polSwap h a asib b bsib).1.isSome = true → (polSwap h a asib b bsib).2 = h) := by
  cases a <;> cases asib <;> cases b <;> cases bsib <;> simp [polSwap]

/-- C4: the bytes `WritePollard` writes for `p`, read by `RestorePollard` from the start
of the file into a pollard `q` without roots, give `numLeaves` equal to `p.numLeaves` and
as many roots as `p` has, with the same data in the same order and both nieces nil.
`p.numLeaves` is a `uint64`. -/
theorem RestorePollard_WritePollard (p q : Pollard) (hn : p.numLeaves < 2 ^ 64)
    (hq : q.roots = []) :
    ∃ r, RestorePollard q ⟨WritePollard p, 0⟩ = Run.done r ∧
      r.numLeaves = p.numLeaves ∧
      r.roots.length = p.roots.length ∧
      r.roots.map polNode.data = p.roots.map polNode.data ∧
      ∀ n ∈ r.roots, n.niece = (none, none) := by
  have hread : File.Read ⟨WritePollard p, 0⟩ 8
      = some (U64tB p.numLeaves, ⟨WritePollard p, (U64tB p.numLeaves).length⟩) := by
    have hgot : List.take 8 (U64tB p.numLeaves ++
        (p.roots.map (fun r => r.data.bytes)).flatten) = U64tB p.numLeaves :=
      List.take_left' (U64tB_length _)
    simp [File.Read, WritePollard_eq, hgot, U64tB_length]
  have hfuel : p.roots.length < (WritePollard p).length + 1 := by
    rw [WritePollard_eq, List.length_append, rootBytes_length]
    omega
  have hloop := restoreLoop_hashes p.roots (U64tB p.numLeaves) q.roots
    ((WritePollard p).length + 1) hfuel
  rw [← WritePollard_eq] at hloop
  refine ⟨{ q with numLeaves := p.numLeaves,
                   roots := p.roots.map (fun r => ⟨r.data, (none, none)⟩) }, ?_, rfl, ?_, ?_, ?_⟩
  · simp only [RestorePollard, hread]
    rw [U64tB_length] at hloop ⊢
    rw [hloop, padTo_of_length 8 _ (U64tB_length _), BtU64_U64tB _ hn, hq]
    simp
  · simp
  · simp [List.map_map, Function.comp_def]
  · intro n hmem
    simp only [List.mem_map] at hmem
    obtain ⟨r, _, rfl⟩ := hmem
    rfl

/-- C4 at a concrete pollard: five leaves, two roots, restored into the empty pollard. -/
theorem RestorePollard_WritePollard_witness :
    examplePollard.numLeaves < 2 ^ 64 ∧ emptyPollard.roots = [] ∧
    ∃ r, RestorePollard emptyPollard ⟨WritePollard examplePollard, 0⟩ = Run.done r ∧
      r.numLeaves = examplePollard.numLeaves ∧
      r.roots.length = examplePollard.roots.length ∧
      r.roots.map polNode.data = examplePollard.roots.map polNode.data ∧
      ∀ n ∈ r.roots, n.niece = (none, none) :=
  ⟨by decide, rfl, RestorePollard_WritePollard examplePollard emptyPollard (by decide) rfl⟩

/-- C5, as stated, fails: the pollard that `RestorePollard` builds from a file holding
only the 8 bytes of `numLeaves = 1` has one leaf and no root, and `WritePollard` writes
8 bytes for it, not `8 + 32 * popcount 1 = 40`. -/
theorem WritePollard_length_not_popcount :
    RestorePollard emptyPollard ⟨U64tB 1, 0⟩ = Run.done ⟨1, [], 0, 0, 0, []⟩ ∧
    (WritePollard ⟨1, [], 0, 0, 0, []⟩).length = 8 ∧
    (WritePollard ⟨1, [], 0, 0, 0, []⟩).length ≠ 8 + 32 * popcount 1 := by
  refine ⟨by rfl, by rfl, by decide⟩

/-- C5, amended: `WritePollard` writes the 8-byte big-endian encoding of `p.numLeaves`
followed by the hashes of `p.roots`, 32 bytes each, in the order of `p.roots`; that is
`8 + 32 * len(p.roots)` bytes, which is `8 + 32 * popcount(p.numLeaves)` exactly when
`p` has `popcount(p.numLeaves)` roots. -/
theorem WritePollard_bytes (p : Pollard) :
    WritePollard p = U64tB p.numLeaves ++ (p.roots.map (fun r => r.data.bytes)).flatten ∧
    (U64tB p.numLeaves).length = 8 ∧
    (∀ r ∈ p.roots, r.data.bytes.length = 32) ∧
    (WritePollard p).length = 8 + 32 * p.roots.length ∧
    ((WritePollard p).length = 8 + 32 * popcount p.numLeaves ↔
      p.roots.length = popcount p.numLeaves) := by
  have hlen : (WritePollard p).length = 8 + 32 * p.roots.length := by
    rw [WritePollard_eq, List.length_append, rootBytes_length, U64tB_length]
  refine ⟨WritePollard_eq p, rfl, fun r _ => r.data.len, hlen, ?_⟩
  rw [hlen]
  omega

/-- C6: `prune` on a present node with an absent niece slot does not complete: on node 0
(one niece absent) and on node 2 (both absent) it dereferences nil in `deadEnd`. -/
theorem prune_absent_niece_fails :
    (pruneHeap 0).niece = (some 1, none) ∧ (prune pruneHeap (some 0)).isNone = true ∧
    (pruneHeap 2).niece = (none, none) ∧ (prune pruneHeap (some 2)).isNone = true :=
  ⟨rfl, rfl, rfl, rfl⟩

/-- C7: `leafPrune` on a present node completes; if both nieces are present and both are
dead ends, both niece slots are nil afterwards; otherwise the nieces are unchanged; the
data of the node and every other node are unchanged. -/
theorem leafPrune_spec (h : Heap) (a : Nat) :
    ∃ h1, leafPrune h (some a) = some h1 ∧
      (h1 a).data = (h a).data ∧
      ((∃ x y, (h a).niece = (some x, some y) ∧
          (h x).niece = (none, none) ∧ (h y).niece = (none, none)) →
        (h1 a).niece = (none, none)) ∧
      ((¬ ∃ x y, (h a).niece = (some x, some y) ∧
          (h x).niece = (none, none) ∧ (h y).niece = (none, none)) →
        (h1 a).niece = (h a).niece) ∧
      ∀ q, q ≠ a → h1 q = h q := by
  rcases hn : (h a).niece with ⟨n0, n1⟩
  cases n0 with
  | none =>
    refine ⟨h, ?_, rfl, ?_, fun _ => hn, fun _ _ => rfl⟩
    · simp [leafPrune, hn]
    · rintro ⟨x, y, e, _⟩
      simp at e
  | some x =>
    cases n1 with
    | none =>
      refine ⟨h, ?_, rfl, ?_, fun _ => hn, fun _ _ => rfl⟩
      · simp [leafPrune, hn]
      · rintro ⟨x, y, e, _⟩
        simp at e
    | some y =>
      by_cases hx : (h x).niece = (none, none)
      · by_cases hy : (h y).niece = (none, none)
        · refine ⟨setNiece1 (setNiece0 h a none) a none, ?_, ?_, ?_, ?_, ?_⟩
          · simp only [leafPrune, hn, deadEnd_some, hx, hy, decide_True, chop]
          · simp [setNiece0, setNiece1, setNiece_data]
          · intro _
            simp [setNiece0, setNiece1, setNiece_niece]
          · intro hno
            exact absurd ⟨x, y, rfl, hx, hy⟩ hno
          · intro q hq
            simp [setNiece0, setNiece1, setNiece_other, hq]
        · refine ⟨h, ?_, rfl, ?_, fun _ => hn, fun _ _ => rfl⟩
          · simp only [leafPrune, hn, deadEnd_some, hx, hy, decide_True, decide_False]
          · rintro ⟨x1, y1, e, _, hy1⟩
            simp only [Prod.mk.injEq, Option.some.injEq] at e
            rw [← e.2] at hy1
            exact absurd hy1 hy
      · refine ⟨h, ?_, rfl, ?_, fun _ => hn, fun _ _ => rfl⟩
        · simp only [leafPrune, hn, deadEnd_some, hx, decide_False]
        · rintro ⟨x1, y1, e, hx1, _⟩
          simp only [Prod.mk.injEq, Option.some.injEq] at e
          rw [← e.1] at hx1
          exact absurd hx1 hx

/-- C8: when no element has `end > h`, `SplitAfter` returns two empty slices: on the
sorted slice of two txos that end at heights 1 and 3, with `h = 5`, both have died by
`h` and neither is in the returned low slice. -/
theorem SplitAfter_all_dead_loses_txos :
    SplitAfter [⟨0, 1⟩, ⟨1, 3⟩] 5 = ([], []) ∧
    (SplitAfter [⟨0, 1⟩, ⟨1, 3⟩] 5).1 ++ (SplitAfter [⟨0, 1⟩, ⟨1, 3⟩] 5).2
      ≠ [⟨0, 1⟩, ⟨1, 3⟩] := by
  constructor
  · rfl
  · decide

/-- C9: `rootHashesReverse` returns as many hashes as `p` has roots, its element `i` is
the data of `p.roots[len(p.roots)-1-i]`, so it is the reverse of the stored sequence of
root hashes and reversing it gives them back in stored order. -/
theorem rootHashesReverse_spec (p : Pollard) :
    (rootHashesReverse p).length = p.roots.length ∧
    (∀ i, i < p.roots.length →
      (rootHashesReverse p).get? i
        = (p.roots.get? (p.roots.length - 1 - i)).map polNode.data) ∧
    rootHashesReverse p = (p.roots.map polNode.data).reverse ∧
    (rootHashesReverse p).reverse = p.roots.map polNode.data := by
  refine ⟨?_, ?_, rootHashesReverse_eq p, ?_⟩
  · simp [rootHashesReverse_eq]
  · intro i hi
    rw [rootHashesReverse_eq, List.get?_eq_getElem?, List.get?_eq_getElem?,
      List.getElem?_reverse (by simpa using hi), List.getElem?_map]
    simp
  · simp [rootHashesReverse_eq]

/-- C10: a `UData` with one target and two leaf datas, for which `Reconstruct` gives the
hash of the first leaf data at the target, is accepted: `Verify` returns true. With one
target and no leaf data the same call ends in an out-of-range access. -/
theorem Verify_length_mismatch_not_rejected :
    (Verify (fun _ _ _ => Except.ok (fun pos => if pos = 0 then some (Hash.fill 3) else none))
      Hash.fill ⟨⟨[0], []⟩, [3, 4]⟩ 1 0).1 = Exit.returned true ∧
    (Verify (fun _ _ _ => Except.ok (fun pos => if pos = 0 then some (Hash.fill 3) else none))
      Hash.fill ⟨⟨[0], []⟩, []⟩ 1 0).1 = Exit.indexOutOfRange := by
  constructor
  · decide
  · decide

/-- C11: for a `UData` with as many leaf datas as targets, `Verify` returns true exactly
when `Reconstruct` of the proof with sorted targets succeeds with a map that has, at the
`i`-th target of the order before the call, the leaf hash of the `i`-th leaf data. -/
theorem Verify_true_iff {α : Type}
    (Reconstruct : BatchProof → Nat → Nat → Except String (Nat → Option Hash))
    (LeafHash : α → Hash) (ud : UData α) (nl h : Nat)
    (hlen : ud.UtxoData.length = ud.AccProof.Targets.length) :
    (Verify Reconstruct LeafHash ud nl h).1 = Exit.returned true ↔
      ∃ mp, Reconstruct ud.AccProof.SortTargets nl h = Except.ok mp ∧
        ∀ i (hi : i < ud.AccProof.Targets.length),
          mp (ud.AccProof.Targets.get ⟨i, hi⟩)
            = some (LeafHash (ud.UtxoData.get ⟨i, by omega⟩)) := by
  have hloop : ∀ mp : Nat → Option Hash,
      verifyLoop LeafHash mp ud.UtxoData 0 ud.AccProof.Targets = none ↔
        ∀ i (hi : i < ud.AccProof.Targets.length),
          mp (ud.AccProof.Targets.get ⟨i, hi⟩)
            = some (LeafHash (ud.UtxoData.get ⟨i, by omega⟩)) := by
    intro mp
    rw [verifyLoop_none_iff]
    constructor
    · intro hall i hi
      obtain ⟨d, hd, hmp⟩ := hall i (ud.AccProof.Targets.get ⟨i, hi⟩) (List.get?_eq_get hi)
      rw [Nat.zero_add, List.get?_eq_get (by omega : i < ud.UtxoData.length)] at hd
      rw [hmp, ← Option.some.inj hd]
    · intro hall j pos hj
      have hjlt : j < ud.AccProof.Targets.length := by
        by_contra hge
        rw [List.get?_eq_none.mpr (by omega)] at hj
        exact Option.noConfusion hj
      rw [List.get?_eq_get hjlt] at hj
      refine ⟨ud.UtxoData.get ⟨j, by omega⟩, ?_, ?_⟩
      · rw [Nat.zero_add, List.get?_eq_get]
      · rw [← Option.some.inj hj]
        exact hall j hjlt
  unfold Verify
  simp only
  cases hrec : Reconstruct ud.AccProof.SortTargets nl h with
  | error e =>
    simp only
    constructor
    · intro hf
      simp at hf
    · rintro ⟨mp, hmp, _⟩
      exact Except.noConfusion hmp
  | ok mp =>
    simp only
    cases hrun : verifyLoop LeafHash mp ud.UtxoData 0 ud.AccProof.Targets with
    | some e =>
      simp only
      constructor
      · intro he
        rw [he] at hrun
        exact absurd hrun (verifyLoop_ne_true LeafHash mp ud.UtxoData ud.AccProof.Targets 0)
      · rintro ⟨mp1, hmp1, hall⟩
        have hmp : mp1 = mp := (Except.ok.inj hmp1).symm
        subst hmp
        rw [(hloop mp1).mpr hall] at hrun
        exact Option.noConfusion hrun
    | none =>
      simp only [true_iff]
      exact ⟨mp, rfl, (hloop mp).mp hrun⟩

/-- C11 at a concrete input: targets `[1, 0]` with the leaf datas in that order are
accepted, and the same leaf datas in the order of the sorted targets are rejected. -/
theorem Verify_true_iff_witness :
    orderUData.UtxoData.length = orderUData.AccProof.Targets.length ∧
    ((Verify orderReconstruct Hash.fill orderUData 2 1).1 = Exit.returned true ↔
      ∃ mp, orderReconstruct orderUData.AccProof.SortTargets 2 1 = Except.ok mp ∧
        ∀ i (hi : i < orderUData.AccProof.Targets.length),
          mp (orderUData.AccProof.Targets.get ⟨i, hi⟩)
            = some (Hash.fill (orderUData.UtxoData.get ⟨i, by
                have : orderUData.UtxoData.length = orderUData.AccProof.Targets.length := rfl
                omega⟩))) ∧
    (Verify orderReconstruct Hash.fill orderUData 2 1).1 = Exit.returned true ∧
    (Verify orderReconstruct Hash.fill sortedOrderUData 2 1).1 = Exit.returned false :=
  ⟨rfl, Verify_true_iff orderReconstruct Hash.fill orderUData 2 1 rfl, by decide, by decide⟩

/-- C12: for four present nodes (aliasing allowed) two calls of `polSwap` in a row return
no error and leave the heap, the data and the nieces of every node, as it was before the
first call. -/
theorem polSwap_twice (h : Heap) (a asib b bsib : Nat) :
    (polSwap h (some a) (some asib) (some b) (some bsib)).1 = none ∧
    (polSwap (polSwap h (some a) (some asib) (some b) (some bsib)).2
      (some a) (some asib) (some b) (some bsib)).1 = none ∧
    (polSwap (polSwap h (some a) (some asib) (some b) (some bsib)).2
      (some a) (some asib) (some b) (some bsib)).2 = h := by
  refine ⟨rfl, rfl, ?_⟩
  funext q
  apply polNode_eq
  · simp only [polSwap, setData_data, setData_niece, setNiece_data, setNiece_niece]
    by_cases hqb : q = b
    · subst hqb
      by_cases hab : a = q
      · subst hab; simp
      · simp [hab]
    · by_cases hqa : q = a
      · subst hqa
        simp [hqb, Ne.symm hqb]
      · simp [hqb, hqa]
  · simp only [polSwap, setData_data, setData_niece, setNiece_data, setNiece_niece]
    by_cases hqb : q = bsib
    · subst hqb
      by_cases hab : asib = q
      · subst hab; simp
      · simp [hab]
    · by_cases hqa : q = asib
      · subst hqa
        simp [hqb, Ne.symm hqb]
      · simp [hqb, hqa]

end Utreexo
